import Mathlib

/-!
Verification development for the `personregister-testmiljo` repository
(`src/app.py`): a GDPR test environment that stores user records
(id, name, email) in a SQLite table and applies two transformations —
pseudonymization (Faker) and reversible field-level Fernet encryption of the
email column.  Strings are modelled as lists of character codes (`List Nat`);
the SQLite table as a list of `User` records plus the AUTOINCREMENT
sequence; the filesystem state relevant to the key file as a small record of
flags.  The Fernet cipher itself is an external library (not part of the
repository source), so it is modelled from the specification: an
authenticated token that embeds a version marker, a fresh nonce, the
ciphertext and an integrity tag over the whole body, encoded into a printable
string that contains the padding marker `=` (code 61) and no character of the
plaintext range (in particular no `@`, code 64).
-/

/-- Character codes of a string literal, used for the concrete seeded data. -/
def str2codes (s : String) : List Nat := s.data.map Char.toNat

/-! ## Cipher model (modelled from the spec)

Modelled from the spec: the repository delegates encryption to the external
`cryptography.fernet.Fernet` library, whose code is not under `src/`.
Per the spec, a token embeds a format/version marker, a fresh
initialization vector (nonce), the ciphertext and an integrity tag, all
encoded into one printable string; decryption verifies the tag under the
key and either returns the exact original plaintext or fails.  We model the
integrity tag as a keyed code over the whole body (so that verification
under the key is perfect rather than cryptographic), and the printable
encoding as a shift of every body/tag code out of the plaintext range
followed by the base64 padding marker `=` (61). -/

/-- Modelled from the spec: the integrity tag (HMAC in real Fernet) over the
token body under key `k`.  Injective in the body for a fixed key, and two
distinct keys give distinct tags on any nonempty body. -/
def fernetMac (k : Nat) (body : List Nat) : List Nat :=
  body.map (fun c => c + k)

/-- Modelled from the spec: the raw (pre-encoding) token: version marker
`0x80 = 128`, the nonce, the payload, followed by the integrity tag over
that body. -/
def rawToken (k n : Nat) (p : List Nat) : List Nat :=
  (128 :: n :: p) ++ fernetMac k (128 :: n :: p)

/-- Modelled from the spec: the printable encoding of the raw token
(base64url in real Fernet): every raw code is shifted above the plaintext
character range and the padding marker `=` (61) is appended, so a token
never contains `@` (64) and always contains `=`. -/
def encTok (raw : List Nat) : List Nat :=
  raw.map (fun c => c + 256) ++ [61]

/-- Modelled from the spec: `FERNET.encrypt` — encrypt payload `p` under key
`k` with fresh nonce `n` (the nonce is drawn fresh by the library at each
call; it is a parameter of the model). -/
def FERNET_encrypt (k n : Nat) (p : List Nat) : List Nat :=
  encTok (rawToken k n p)

/-- Modelled from the spec: decode the printable encoding, failing on any
string that is not the encoding of a raw token. -/
def decTok (s : List Nat) : Option (List Nat) :=
  if s.getLast? = some 61 then
    let body := s.dropLast
    if body.all (fun c => 256 ≤ c) then some (body.map (fun c => c - 256))
    else none
  else none

/-- Modelled from the spec: `FERNET.decrypt` — decode the token, split body
and tag, verify the integrity tag under `k` and the version marker, and
return the exact payload; any failure yields `none` (the library's
`InvalidToken` / the spec's `DecryptionError`). -/
def FERNET_decrypt (k : Nat) (s : List Nat) : Option (List Nat) :=
  (decTok s).bind (fun raw =>
    if raw.length % 2 = 0 then
      if raw.drop (raw.length / 2) = fernetMac k (raw.take (raw.length / 2))
      then
        if (raw.take (raw.length / 2)).head? = some 128
            ∧ 2 ≤ (raw.take (raw.length / 2)).length then
          some ((raw.take (raw.length / 2)).drop 2)
        else none
      else none
    else none)

/-! ## Record store model (from `src/app.py`)

A row of the `users` table: `id INTEGER PRIMARY KEY AUTOINCREMENT`,
`name TEXT NOT NULL`, `email TEXT NOT NULL`.  Text columns are lists of
character codes. -/

structure User where
  id : Nat
  name : List Nat
  email : List Nat
deriving DecidableEq, Repr

/-- The SQLite database state: the rows of `users` plus the AUTOINCREMENT
sequence value (the largest rowid ever assigned; SQLite's `sqlite_sequence`
entry, which `DELETE FROM users` does not reset). -/
structure DBState where
  users : List User
  seq : Nat
deriving DecidableEq, Repr

/-- A freshly created database: no rows, no AUTOINCREMENT history. -/
def freshDB : DBState := ⟨[], 0⟩

/-- Model of `init_database` (src/app.py:82-115): `CREATE TABLE IF NOT EXISTS`,
`DELETE FROM users` (which leaves the AUTOINCREMENT sequence untouched),
then insert the two fixed test users; AUTOINCREMENT assigns them the next
two ids after the sequence value. -/
def init_database (s : DBState) : DBState :=
  { users := [⟨s.seq + 1, str2codes "Anna Andersson", str2codes "anna@test.se"⟩,
              ⟨s.seq + 2, str2codes "Bo Bengtsson", str2codes "bo@test.se"⟩],
    seq := s.seq + 2 }

/-! ## Record transform driver (from `src/app.py`)

Both `anonymize_users` (lines 158-180) and `encrypt_emails` (lines 200-219)
follow the same shape: `SELECT` a snapshot of the rows, then for each
selected row run `UPDATE ... WHERE id = ?`.  `idLoop` is that shape,
parametrised by the per-row payload taken from the snapshot and by the
update applied to a matching row; `j` counts the iterations so that the
fresh values drawn inside the loop body (Fernet nonces, Faker outputs) can
be supplied as an indexed family. -/

def idLoop {α : Type} (f : Nat → α → User → User) (j : Nat)
    (pairs : List (Nat × α)) (db : List User) : List User :=
  match pairs with
  | [] => db
  | (uid, a) :: rest =>
    idLoop f (j + 1) rest
      (db.map (fun u => if u.id = uid then f j a u else u))

/-- Model of `encrypt_emails` (src/app.py:200-219): `SELECT id, email FROM users`,
then for each pair replace that row's email with its Fernet encryption of
the snapshot email.  `k` is the process key and `nonces j` the fresh nonce
drawn by the library at the `j`-th encryption call. -/
def encrypt_emails (k : Nat) (nonces : Nat → Nat) (db : List User) :
    List User :=
  idLoop (fun j em u => { u with email := FERNET_encrypt k (nonces j) em }) 0
    (db.map (fun u => (u.id, u.email))) db

/-- Model of `anonymize_users` (src/app.py:158-180): `SELECT id FROM users`, then for
each id replace that row's name and email with fresh Faker values; `fakes j`
is the (name, email) pair produced at the `j`-th iteration. -/
def anonymize_users (fakes : Nat → List Nat × List Nat) (db : List User) :
    List User :=
  idLoop (fun j _ u => { u with name := (fakes j).1, email := (fakes j).2 }) 0
    (db.map (fun u => (u.id, ()))) db

/-- Model of `decrypt_and_print_emails` (src/app.py:271-289): `SELECT id, email`, then
print the decryption of each email.  There is no try/except around the
`FERNET.decrypt` call, so a failing record raises out of the loop: the model
returns the lines printed before the failure together with a flag telling
whether the loop was aborted by an exception. -/
def decrypt_and_print_emails (k : Nat) (db : List User) :
    List (Nat × List Nat) × Bool :=
  match db with
  | [] => ([], false)
  | u :: rest =>
    match FERNET_decrypt k u.email with
    | none => ([], true)
    | some p =>
      let r := decrypt_and_print_emails k rest
      ((u.id, p) :: r.1, r.2)

/-- The per-record check of `test_email_encryption` (src/app.py:245-253):
a record passes when its email contains no `@` (64) and contains `=` (61). -/
def checkEmail (email : List Nat) : Bool :=
  if email.contains 64 then false
  else if !email.contains 61 then false
  else true

/-- Model of `test_email_encryption` (src/app.py:224-262): report (id, pass?) per
record, and the overall flag `all_ok`, which starts `true` and is set to
`false` whenever a record fails. -/
def test_email_encryption (db : List User) : List (Nat × Bool) × Bool :=
  (db.map (fun u => (u.id, checkEmail u.email)),
   db.foldl (fun acc u => acc && checkEmail u.email) true)

/-! ## Key provider model (from `src/app.py`)

`load_or_create_key` (lines 40-65) touches the filesystem: existence and
contents of the key file, existence of its parent directory, and the
possible failure of `open`-for-read, `os.makedirs` and `open`-for-write.
The state records the key file contents (`none` when absent) and the parent
directory, plus environment flags saying whether each of the three
operations would raise an `OSError` if attempted.  The flags are
independent: e.g. `makedirs` may fail while a subsequent write succeeds
(the directory can exist or appear regardless). -/

structure KeyFS where
  keyFile : Option (List Nat)
  parentExists : Bool
  readFails : Bool
  mkdirFails : Bool
  writeFails : Bool
deriving DecidableEq, Repr

/-- The raw `OSError`s that `load_or_create_key` can let escape.  Note the
source defines no `KeyReadError`/`KeyWriteError` classes; these are the
uncaught built-in errors of the read and write calls. -/
inductive OsError where
  | readError
  | writeError
deriving DecidableEq, Repr

/-- The `try: os.makedirs(...) except Exception: pass` step
(src/app.py:53-59): if the parent directory is missing, attempt to create
it; any exception is swallowed and execution continues with the directory
still missing. -/
def mkdirStep (fs : KeyFS) : KeyFS :=
  if !fs.parentExists && !fs.mkdirFails then { fs with parentExists := true }
  else fs

/-- Model of `load_or_create_key` (src/app.py:40-65): if the key file exists, read and
return its bytes verbatim (no validation; a failing read raises).  Otherwise
generate a fresh key (`freshKey`, the output of `Fernet.generate_key()`),
try to create the parent directory with any exception swallowed
(`try/except: pass`, lines 55-59), then write the key (a failing write
raises) and return it. -/
def load_or_create_key (fs : KeyFS) (freshKey : List Nat) :
    Except OsError (List Nat × KeyFS) :=
  match fs.keyFile with
  | some bytes =>
    if fs.readFails then .error .readError else .ok (bytes, fs)
  | none =>
    if (mkdirStep fs).writeFails then .error .writeError
    else .ok (freshKey, { mkdirStep fs with keyFile := some freshKey })

/-- A record whose email is not a token of any key (the seeded plaintext
rows are such records). -/
def badUser : User := ⟨1, str2codes "Anna Andersson", str2codes "anna@test.se"⟩

/-- A record whose email is a valid token under key 5. -/
def goodUser : User :=
  ⟨2, str2codes "Bo Bengtsson", FERNET_encrypt 5 0 (str2codes "bo@test.se")⟩

/-- Filesystem state: no key file, parent directory missing, `os.makedirs`
raising, but the subsequent `open`-for-write succeeding (the directory may
exist or appear regardless of the failed `makedirs` call). -/
def fsNoDir : KeyFS :=
  ⟨none, false, false, true, false⟩

/-- Filesystem state: the key location holds readable but malformed key
material (wrong length for the scheme). -/
def fsMalformed : KeyFS :=
  ⟨some [1, 2, 3], true, false, false, false⟩

/-- Modelled from the spec: valid Fernet key material has a fixed
length/format (32 random bytes in urlsafe base64, a 44-character string);
the model checks the length.  The source never performs this check. -/
def isValidFernetKey (b : List Nat) : Bool := b.length = 44

/-! ## Cipher lemmas -/

theorem fernetMac_length (k : Nat) (b : List Nat) :
    (fernetMac k b).length = b.length := by
  simp [fernetMac]

theorem fernetMac_inj {k : Nat} {b1 b2 : List Nat}
    (h : fernetMac k b1 = fernetMac k b2) : b1 = b2 := by
  unfold fernetMac at h
  exact List.map_injective_iff.2 (fun a b hab => by omega) h

theorem decTok_encTok (raw : List Nat) : decTok (encTok raw) = some raw := by
  unfold decTok encTok
  rw [List.getLast?_concat, List.dropLast_concat]
  have hall : (raw.map (fun c => c + 256)).all (fun c => 256 ≤ c) = true := by
    simp only [List.all_eq_true, List.mem_map]
    rintro x ⟨a, _, rfl⟩
    simp
  rw [if_pos rfl, if_pos hall, List.map_map]
  have hcong : ∀ a ∈ raw, ((fun c => c - 256) ∘ fun c => c + 256) a = id a := by
    intro a _
    simp only [Function.comp_apply, id_eq]
    omega
  rw [List.map_congr_left hcong, List.map_id]

theorem decTok_sound {s raw : List Nat} (h : decTok s = some raw) :
    s = encTok raw := by
  unfold decTok at h
  by_cases h1 : s.getLast? = some 61
  · rw [if_pos h1] at h
    by_cases h2 : s.dropLast.all (fun c => 256 ≤ c)
    · rw [if_pos h2] at h
      simp only [Option.some.injEq] at h
      have hs : s = s.dropLast ++ [61] := by
        have hne : s ≠ [] := by rintro rfl; simp at h1
        conv_lhs => rw [← List.dropLast_append_getLast hne]
        rw [List.getLast?_eq_getLast s hne] at h1
        simp only [Option.some.injEq] at h1
        rw [h1]
      have hmap : raw.map (fun c => c + 256) = s.dropLast := by
        rw [← h, List.map_map]
        have hcong : ∀ a ∈ s.dropLast,
            ((fun c => c + 256) ∘ fun c => c - 256) a = id a := by
          intro a ha
          simp only [List.all_eq_true, decide_eq_true_eq] at h2
          have h256 := h2 a ha
          simp only [Function.comp_apply, id_eq]
          omega
        rw [List.map_congr_left hcong, List.map_id]
      rw [encTok, hmap, ← hs]
    · rw [if_neg h2] at h; cases h
  · rw [if_neg h1] at h; cases h

theorem rawToken_length (k n : Nat) (p : List Nat) :
    (rawToken k n p).length = (p.length + 2) + (p.length + 2) := by
  rw [rawToken, List.length_append, fernetMac_length]
  simp only [List.length_cons]

/-- If any string decrypts successfully under `k`, it is exactly the
encryption of the returned payload under `k` with some nonce: decryption
never returns altered or partial plaintext, and fails on everything that is
not a genuine token of the key. -/
theorem FERNET_decrypt_sound {k : Nat} {s p : List Nat}
    (h : FERNET_decrypt k s = some p) : ∃ n, s = FERNET_encrypt k n p := by
  unfold FERNET_decrypt at h
  cases hd : decTok s with
  | none => rw [hd, Option.none_bind] at h; cases h
  | some raw =>
    rw [hd, Option.some_bind] at h
    by_cases h1 : raw.length % 2 = 0
    · rw [if_pos h1] at h
      by_cases h2 : raw.drop (raw.length / 2)
          = fernetMac k (raw.take (raw.length / 2))
      · rw [if_pos h2] at h
        by_cases h3 : (raw.take (raw.length / 2)).head? = some 128
            ∧ 2 ≤ (raw.take (raw.length / 2)).length
        · rw [if_pos h3] at h
          simp only [Option.some.injEq] at h
          obtain ⟨hhead, hlen2⟩ := h3
          rcases hb : raw.take (raw.length / 2) with _ | ⟨c, rest⟩
          · rw [hb] at hhead; cases hhead
          · rcases hrest : rest with _ | ⟨d, tail⟩
            · rw [hb, hrest] at hlen2; simp at hlen2
            · rw [hb, hrest] at hhead h
              simp only [List.head?_cons, Option.some.injEq] at hhead
              subst hhead
              simp only [List.drop_succ_cons, List.drop_zero] at h
              refine ⟨d, ?_⟩
              have hraw : raw = rawToken k d tail := by
                conv_lhs =>
                  rw [← List.take_append_drop (raw.length / 2) raw]
                rw [h2, hb, hrest, rawToken]
              rw [decTok_sound hd, hraw, ← h, FERNET_encrypt]
        · rw [if_neg h3] at h; cases h
      · rw [if_neg h2] at h; cases h
    · rw [if_neg h1] at h; cases h

/-- Round-trip: decryption under the same key recovers the exact payload. -/
theorem FERNET_roundtrip (k n : Nat) (p : List Nat) :
    FERNET_decrypt k (FERNET_encrypt k n p) = some p := by
  have hlen : (rawToken k n p).length = 2 * (128 :: n :: p).length := by
    rw [rawToken, List.length_append, fernetMac_length]
    omega
  have h1 : (rawToken k n p).length % 2 = 0 := by omega
  have h12 : (rawToken k n p).length / 2 = (128 :: n :: p).length := by omega
  have htake : (rawToken k n p).take ((rawToken k n p).length / 2)
      = 128 :: n :: p := by
    rw [h12, rawToken, List.take_left]
  have hdrop : (rawToken k n p).drop ((rawToken k n p).length / 2)
      = fernetMac k (128 :: n :: p) := by
    rw [h12, rawToken, List.drop_left]
  unfold FERNET_encrypt FERNET_decrypt
  rw [decTok_encTok, Option.some_bind, if_pos h1, htake, hdrop, if_pos rfl,
    if_pos ⟨rfl, by simp⟩]
  rfl

theorem encTok_length (raw : List Nat) : (encTok raw).length = raw.length + 1 := by
  simp [encTok]

/-- A single-position overwrite that turns one valid raw token into a valid
raw token is a no-op: the body and its integrity tag would otherwise have to
change together, which a single position cannot do. -/
theorem rawToken_set_trivial {k n d : Nat} {p q : List Nat} {i c : Nat}
    (h : (rawToken k n p).set i c = rawToken k d q) :
    (rawToken k n p).set i c = rawToken k n p := by
  have hlenpq : p.length = q.length := by
    have h0 := congrArg List.length h
    rw [List.length_set, rawToken_length, rawToken_length] at h0
    omega
  have hL : (128 :: n :: p).length = (128 :: d :: q).length := by
    simp [hlenpq]
  rcases Nat.lt_or_ge i (128 :: n :: p).length with hiL | hiR
  · rw [rawToken, List.set_append_left i c hiL] at h ⊢
    obtain ⟨he1, he2⟩ := List.append_inj h (by rw [List.length_set]; exact hL)
    have hb : (128 :: n :: p) = (128 :: d :: q) := fernetMac_inj he2
    rw [he1, ← hb]
  · rw [rawToken, List.set_append_right i c hiR] at h ⊢
    obtain ⟨he1, he2⟩ := List.append_inj h hL
    rw [he2, he1, ← he1]

/-- Tamper detection: overwriting any single character of a valid token with
a different character makes decryption under the token's key fail. -/
theorem FERNET_tamper (k n : Nat) (p : List Nat) (i c : Nat)
    (hi : i < (FERNET_encrypt k n p).length)
    (hc : c ≠ (FERNET_encrypt k n p).get ⟨i, hi⟩) :
    FERNET_decrypt k ((FERNET_encrypt k n p).set i c) = none := by
  by_contra hne
  obtain ⟨q, hq⟩ := Option.ne_none_iff_exists'.1 hne
  obtain ⟨d, hd⟩ := FERNET_decrypt_sound hq
  apply hc
  suffices hset : (FERNET_encrypt k n p).set i c = FERNET_encrypt k n p by
    have h1 : ((FERNET_encrypt k n p).set i c)[i]? = some c :=
      List.getElem?_set_eq_of_lt c hi
    rw [hset, List.getElem?_eq_getElem hi] at h1
    rw [List.get_eq_getElem]
    exact (Option.some.inj h1).symm
  simp only [FERNET_encrypt, encTok] at hd ⊢
  rcases Nat.lt_or_ge i (rawToken k n p).length with hiL | hiR
  · -- the overwritten position is inside the encoded raw token
    have hmapL : i < ((rawToken k n p).map (fun c => c + 256)).length := by
      rw [List.length_map]; exact hiL
    rw [List.set_append_left i c hmapL] at hd
    have hlen : (((rawToken k n p).map (fun c => c + 256)).set i c).length
        = ((rawToken k d q).map (fun c => c + 256)).length := by
      have h0 := congrArg List.length hd
      rw [List.length_append, List.length_append] at h0
      simpa using h0
    obtain ⟨he1, _⟩ := List.append_inj hd hlen
    have hcv : ((rawToken k d q).map (fun c => c + 256))[i]? = some c := by
      rw [← he1]
      exact List.getElem?_set_eq_of_lt c hmapL
    rw [List.getElem?_map] at hcv
    obtain ⟨a, _, hfa⟩ := Option.map_eq_some'.1 hcv
    change a + 256 = c at hfa
    have hc256 : 256 ≤ c := by omega
    have hmapset : ((rawToken k n p).set i (c - 256)).map (fun c => c + 256)
        = ((rawToken k n p).map (fun c => c + 256)).set i c := by
      have hcc : c - 256 + 256 = c := by omega
      rw [List.map_set]
      show ((rawToken k n p).map (fun c => c + 256)).set i (c - 256 + 256)
          = ((rawToken k n p).map (fun c => c + 256)).set i c
      rw [hcc]
    have hinj : Function.Injective (fun c : Nat => c + 256) := by
      intro a b hab
      simpa using hab
    have hraw : (rawToken k n p).set i (c - 256) = rawToken k d q := by
      apply List.map_injective_iff.2 hinj
      rw [hmapset, he1]
    have htriv := rawToken_set_trivial hraw
    rw [List.set_append_left i c hmapL, ← hmapset, htriv]
  · -- the overwritten position is the final padding marker
    have hmapR : ((rawToken k n p).map (fun c => c + 256)).length ≤ i := by
      rw [List.length_map]; exact hiR
    have hizero : i - ((rawToken k n p).map (fun c => c + 256)).length = 0 := by
      have hi2 : i < (rawToken k n p).length + 1 := by
        have h3 := hi
        rw [FERNET_encrypt, encTok_length] at h3
        exact h3
      rw [List.length_map]
      omega
    rw [List.set_append_right i c hmapR, hizero] at hd
    have hlen : ((rawToken k n p).map (fun c => c + 256)).length
        = ((rawToken k d q).map (fun c => c + 256)).length := by
      have h0 := congrArg List.length hd
      rw [List.length_append, List.length_append] at h0
      simpa using h0
    obtain ⟨_, he2⟩ := List.append_inj hd hlen
    have hc61 : c = 61 := by
      have hset0 : ([61].set 0 c : List Nat) = [c] := rfl
      rw [hset0] at he2
      exact (List.cons.inj he2).1
    subst hc61
    rw [List.set_append_right i 61 hmapR, hizero]
    rfl

/-- Cross-key failure: a token produced under one key fails to decrypt under
any other key — the integrity tag no longer verifies. -/
theorem FERNET_cross_key {k1 k2 : Nat} (hk : k1 ≠ k2) (n : Nat)
    (p : List Nat) : FERNET_decrypt k2 (FERNET_encrypt k1 n p) = none := by
  have hlen : (rawToken k1 n p).length = 2 * (128 :: n :: p).length := by
    rw [rawToken, List.length_append, fernetMac_length]
    omega
  have h1 : (rawToken k1 n p).length % 2 = 0 := by omega
  have h12 : (rawToken k1 n p).length / 2 = (128 :: n :: p).length := by omega
  have htake : (rawToken k1 n p).take ((rawToken k1 n p).length / 2)
      = 128 :: n :: p := by
    rw [h12, rawToken, List.take_left]
  have hdrop : (rawToken k1 n p).drop ((rawToken k1 n p).length / 2)
      = fernetMac k1 (128 :: n :: p) := by
    rw [h12, rawToken, List.drop_left]
  have hne : fernetMac k1 (128 :: n :: p) ≠ fernetMac k2 (128 :: n :: p) := by
    intro heq
    have hfirst := congrArg (fun l => l[0]?) heq
    simp only [fernetMac, List.map_cons, List.getElem?_cons_zero,
      Option.some.injEq] at hfirst
    omega
  unfold FERNET_encrypt FERNET_decrypt
  rw [decTok_encTok, Option.some_bind, if_pos h1, htake, hdrop, if_neg hne]

/-- Distinct nonces give distinct tokens for the same key and plaintext. -/
theorem FERNET_encrypt_nonce_inj {k n1 n2 : Nat} (p : List Nat)
    (h : n1 ≠ n2) : FERNET_encrypt k n1 p ≠ FERNET_encrypt k n2 p := by
  intro heq
  apply h
  have h1 := congrArg (fun l => l[1]?) heq
  simp only [FERNET_encrypt, encTok, rawToken, fernetMac, List.map_cons,
    List.map_append, List.cons_append, List.getElem?_cons_succ,
    List.getElem?_cons_zero, Option.some.injEq] at h1
  omega

/-- Membership in a token: every character of a token is either a shifted
raw character (at least 256) or the padding marker 61. -/
theorem mem_encTok {x : Nat} {raw : List Nat} (hx : x ∈ encTok raw) :
    256 ≤ x ∨ x = 61 := by
  rw [encTok, List.mem_append] at hx
  rcases hx with hx | hx
  · rw [List.mem_map] at hx
    obtain ⟨a, _, rfl⟩ := hx
    left; omega
  · right; simpa using hx

/-- A token always passes the heuristic check of `test_email_encryption`:
it contains no `@` (64) and contains `=` (61). -/
theorem checkEmail_encrypt (k n : Nat) (p : List Nat) :
    checkEmail (FERNET_encrypt k n p) = true := by
  have h64 : (FERNET_encrypt k n p).contains 64 = false := by
    show List.elem 64 (FERNET_encrypt k n p) = false
    rw [List.elem_eq_mem, decide_eq_false_iff_not]
    intro hmem
    rcases mem_encTok hmem with h | h <;> omega
  have h61 : (FERNET_encrypt k n p).contains 61 = true := by
    show List.elem 61 (FERNET_encrypt k n p) = true
    rw [List.elem_eq_mem, decide_eq_true_eq, FERNET_encrypt, encTok,
      List.mem_append]
    right
    simp
  rw [checkEmail, h64, h61]
  rfl

/-! ## Transform driver lemmas -/

theorem idLoop_length {α : Type} (f : Nat → α → User → User)
    (pairs : List (Nat × α)) : ∀ (j : Nat) (db : List User),
    (idLoop f j pairs db).length = db.length := by
  induction pairs with
  | nil => intro j db; rfl
  | cons q rest ih =>
    intro j db
    obtain ⟨uid, a⟩ := q
    rw [idLoop, ih]
    simp

/-- A record whose id is mentioned by none of the remaining pairs is left
untouched by the loop. -/
theorem idLoop_untouched {α : Type} {f : Nat → α → User → User}
    {u : User} (pairs : List (Nat × α))
    (hnot : ∀ q ∈ pairs, q.1 ≠ u.id) :
    ∀ (j i : Nat) (db : List User), db[i]? = some u →
    (idLoop f j pairs db)[i]? = some u := by
  induction pairs with
  | nil => intro j i db hu; exact hu
  | cons q rest ih =>
    intro j i db hu
    obtain ⟨uid, a⟩ := q
    rw [idLoop]
    apply ih (fun q hq => hnot q (List.mem_cons_of_mem _ hq))
    rw [List.getElem?_map, hu, Option.map_some']
    have hne : u.id ≠ uid := by
      intro heq
      exact hnot (uid, a) (List.mem_cons_self _ _) heq.symm
    rw [if_neg hne]

/-- The pair carrying the record's own id updates exactly that record, and
the rest of the loop leaves the result alone (given no later pair reuses the
id and the update preserves ids). -/
theorem idLoop_hit {α : Type} {f : Nat → α → User → User} {u : User}
    {a : α} {rest : List (Nat × α)} {j i : Nat} {db : List User}
    (hu : db[i]? = some u) (hid : (f j a u).id = u.id)
    (hnot : ∀ q ∈ rest, q.1 ≠ u.id) :
    (idLoop f j ((u.id, a) :: rest) db)[i]? = some (f j a u) := by
  rw [idLoop]
  apply idLoop_untouched rest (fun q hq => by rw [hid]; exact hnot q hq)
  rw [List.getElem?_map, hu, Option.map_some', if_pos rfl]

theorem idLoop_append {α : Type} (f : Nat → α → User → User)
    (a b : List (Nat × α)) : ∀ (j : Nat) (db : List User),
    idLoop f j (a ++ b) db = idLoop f (j + a.length) b (idLoop f j a db) := by
  induction a with
  | nil => intro j db; rfl
  | cons q rest ih =>
    intro j db
    obtain ⟨uid, x⟩ := q
    rw [List.cons_append, idLoop, ih, idLoop]
    have hj : j + 1 + rest.length = j + (rest.length + 1) := by omega
    rw [hj]
    simp

/-- Main driver lemma: over a store whose ids are pairwise distinct, the
loop driven by the snapshot `db.map (fun v => (v.id, pay v))` rewrites the
record at position `i` to `f i (pay u) u` (the `i`-th iteration processes
the `i`-th record with its own snapshot payload). -/
theorem idLoop_spec {α : Type} (f : Nat → α → User → User) (pay : User → α)
    (hid : ∀ j a u, (f j a u).id = u.id)
    {db : List User} (hnd : (db.map User.id).Nodup)
    {i : Nat} {u : User} (hu : db[i]? = some u) :
    (idLoop f 0 (db.map (fun v => (v.id, pay v))) db)[i]? =
      some (f i (pay u) u) := by
  obtain ⟨hlt, hget⟩ := List.getElem?_eq_some.1 hu
  have hdb : db = db.take i ++ u :: db.drop (i + 1) := by
    conv_lhs => rw [← List.take_append_drop i db]
    rw [List.drop_eq_getElem_cons hlt, hget]
  have hT : (db.take i).length = i := by
    rw [List.length_take]
    omega
  have hnd2 : ((db.take i).map User.id
      ++ u.id :: (db.drop (i + 1)).map User.id).Nodup := by
    rw [← List.map_cons, ← List.map_append, ← hdb]
    exact hnd
  rw [List.nodup_append] at hnd2
  obtain ⟨_, hndc, hdisj⟩ := hnd2
  have hTne : ∀ v ∈ db.take i, v.id ≠ u.id := by
    intro v hv heq
    exact hdisj (List.mem_map_of_mem User.id hv)
      (heq ▸ List.mem_cons_self _ _)
  have hDne : ∀ v ∈ db.drop (i + 1), v.id ≠ u.id := by
    rw [List.nodup_cons] at hndc
    intro v hv heq
    exact hndc.1 (heq ▸ List.mem_map_of_mem User.id hv)
  have hsplit : db.map (fun v => (v.id, pay v))
      = (db.take i).map (fun v => (v.id, pay v))
        ++ (u.id, pay u) :: (db.drop (i + 1)).map (fun v => (v.id, pay v)) := by
    conv_lhs => rw [hdb]
    rw [List.map_append, List.map_cons]
  rw [hsplit, idLoop_append]
  have hju : ((db.take i).map (fun v => (v.id, pay v))).length = i := by
    rw [List.length_map, hT]
  rw [hju, Nat.zero_add]
  have hinner : (idLoop f 0 ((db.take i).map (fun v => (v.id, pay v))) db)[i]?
      = some u := by
    apply idLoop_untouched _ ?_ 0 i db hu
    intro q hq
    rw [List.mem_map] at hq
    obtain ⟨v, hv, rfl⟩ := hq
    exact hTne v hv
  apply idLoop_hit hinner (hid i (pay u) u)
  intro q hq
  rw [List.mem_map] at hq
  obtain ⟨v, hv, rfl⟩ := hq
  exact hDne v hv

/-- Pointwise specification of `encrypt_emails` over a store with pairwise
distinct ids (the `users` table's PRIMARY KEY invariant): the length is
preserved and the record at each position keeps its id and name, its email
replaced by the encryption of its previous email under the `i`-th nonce. -/
theorem encrypt_emails_spec (k : Nat) (nonces : Nat → Nat) {db : List User}
    (hnd : (db.map User.id).Nodup) :
    (encrypt_emails k nonces db).length = db.length ∧
    ∀ (i : Nat) (u : User), db[i]? = some u →
      (encrypt_emails k nonces db)[i]? =
        some { u with email := FERNET_encrypt k (nonces i) u.email } := by
  constructor
  · unfold encrypt_emails
    exact idLoop_length _ _ 0 db
  · intro i u hu
    unfold encrypt_emails
    exact idLoop_spec
      (fun j em u => { u with email := FERNET_encrypt k (nonces j) em })
      (fun v => v.email) (fun j a u => rfl) hnd hu

/-- Pointwise specification of `anonymize_users` over a store with pairwise
distinct ids: the length is preserved and the record at each position keeps
its id, its name and email replaced by the `i`-th Faker draw. -/
theorem anonymize_users_spec (fakes : Nat → List Nat × List Nat)
    {db : List User} (hnd : (db.map User.id).Nodup) :
    (anonymize_users fakes db).length = db.length ∧
    ∀ (i : Nat) (u : User), db[i]? = some u →
      (anonymize_users fakes db)[i]? =
        some { u with name := (fakes i).1, email := (fakes i).2 } := by
  constructor
  · unfold anonymize_users
    exact idLoop_length _ _ 0 db
  · intro i u hu
    unfold anonymize_users
    exact idLoop_spec
      (fun j _ u => { u with name := (fakes j).1, email := (fakes j).2 })
      (fun _ => ()) (fun j a u => rfl) hnd hu

/-- When every record's email decrypts, the diagnostic listing reports every
record, in order, with its decrypted email, and is not aborted. -/
theorem decrypt_and_print_emails_ok (k : Nat) :
    ∀ (db : List User), (∀ u ∈ db, FERNET_decrypt k u.email ≠ none) →
    decrypt_and_print_emails k db
      = (db.map (fun u => (u.id, (FERNET_decrypt k u.email).getD [])),
         false) := by
  intro db
  induction db with
  | nil => intro _; rfl
  | cons u rest ih =>
    intro h
    obtain ⟨p, hp⟩ :=
      Option.ne_none_iff_exists'.1 (h u (List.mem_cons_self _ _))
    simp only [decrypt_and_print_emails, hp]
    rw [ih (fun v hv => h v (List.mem_cons_of_mem _ hv))]
    simp [hp]

theorem foldl_and_eq_all (g : User → Bool) :
    ∀ (db : List User) (acc : Bool),
    db.foldl (fun a u => a && g u) acc = (acc && db.all g) := by
  intro db
  induction db with
  | nil => intro acc; simp
  | cons u rest ih =>
    intro acc
    rw [List.foldl_cons, ih, List.all_cons, Bool.and_assoc]

/-! ## Claim theorems -/

/-- C1: Round-trip — decrypting the token produced by encrypting any
plaintext under the process key returns exactly that plaintext; and running
`encrypt_emails` followed by `decrypt_and_print_emails` (on a store whose
ids are distinct, the table's PRIMARY KEY invariant) displays, for every
record, the email the record held before encryption, without aborting. -/
theorem claim_C1_round_trip :
    (∀ (k n : Nat) (p : List Nat),
      FERNET_decrypt k (FERNET_encrypt k n p) = some p) ∧
    (∀ (k : Nat) (nonces : Nat → Nat) (db : List User),
      (db.map User.id).Nodup →
      decrypt_and_print_emails k (encrypt_emails k nonces db)
        = (db.map (fun u => (u.id, u.email)), false)) := by
  constructor
  · exact FERNET_roundtrip
  · intro k nonces db hnd
    obtain ⟨hlen, hpt⟩ := encrypt_emails_spec k nonces hnd
    have hall : ∀ v ∈ encrypt_emails k nonces db,
        FERNET_decrypt k v.email ≠ none := by
      intro v hv
      obtain ⟨i, hi⟩ := List.mem_iff_getElem?.1 hv
      obtain ⟨hb, _⟩ := List.getElem?_eq_some.1 hi
      have hilt : i < db.length := by rw [← hlen]; exact hb
      rw [hpt i (db.get ⟨i, hilt⟩)
        (by rw [List.getElem?_eq_getElem hilt, List.get_eq_getElem])] at hi
      have hv2 := Option.some.inj hi
      rw [← hv2]
      show FERNET_decrypt k
        (FERNET_encrypt k (nonces i) (db.get ⟨i, hilt⟩).email) ≠ none
      rw [FERNET_roundtrip]
      simp
    rw [decrypt_and_print_emails_ok k _ hall]
    have hmaps : (encrypt_emails k nonces db).map
        (fun u => (u.id, (FERNET_decrypt k u.email).getD []))
        = db.map (fun u => (u.id, u.email)) := by
      apply List.ext_getElem?
      intro i
      rw [List.getElem?_map, List.getElem?_map]
      rcases Nat.lt_or_ge i db.length with hilt | hige
      · rw [List.getElem?_eq_getElem hilt,
          hpt i (db.get ⟨i, hilt⟩)
            (by rw [List.getElem?_eq_getElem hilt, List.get_eq_getElem]),
          Option.map_some', Option.map_some']
        show some
          (({ db.get ⟨i, hilt⟩ with
              email := FERNET_encrypt k (nonces i)
                (db.get ⟨i, hilt⟩).email } : User).id,
            (FERNET_decrypt k
              (FERNET_encrypt k (nonces i) (db.get ⟨i, hilt⟩).email)).getD [])
          = some ((db.get ⟨i, hilt⟩).id, (db.get ⟨i, hilt⟩).email)
        rw [FERNET_roundtrip]
        rw [List.get_eq_getElem]
        rfl
      · rw [List.getElem?_eq_none hige,
          List.getElem?_eq_none (by rw [hlen]; exact hige)]
        rfl
    rw [hmaps]

/-- Witness for C1 at the concrete seeded store. -/
theorem claim_C1_round_trip_w :
    decrypt_and_print_emails 5
        (encrypt_emails 5 (fun j => j) (init_database freshDB).users)
      = ((init_database freshDB).users.map (fun u => (u.id, u.email)),
         false) :=
  claim_C1_round_trip.2 5 (fun j => j) (init_database freshDB).users
    (by decide)

/-- C2: decryption fails (with the scheme's decryption error, modelled as
`none`) on every string that is not a genuine token of the key — it never
returns altered or partial plaintext; in particular overwriting any single
character of a valid token with a different one makes decryption fail, and
a token produced under one key fails to decrypt under any different key. -/
theorem claim_C2_decrypt_failures :
    (∀ (k : Nat) (s p : List Nat), FERNET_decrypt k s = some p →
      ∃ n, s = FERNET_encrypt k n p) ∧
    (∀ (k n : Nat) (p : List Nat) (i c : Nat)
      (hi : i < (FERNET_encrypt k n p).length),
      c ≠ (FERNET_encrypt k n p).get ⟨i, hi⟩ →
      FERNET_decrypt k ((FERNET_encrypt k n p).set i c) = none) ∧
    (∀ (k1 k2 n : Nat) (p : List Nat), k1 ≠ k2 →
      FERNET_decrypt k2 (FERNET_encrypt k1 n p) = none) :=
  ⟨fun _ _ _ h => FERNET_decrypt_sound h,
   fun k n p i c hi hc => FERNET_tamper k n p i c hi hc,
   fun _ _ n p hk => FERNET_cross_key hk n p⟩

/-- Witness for C2 at concrete inputs: a corrupted token fails, a
cross-key decryption fails, and a successful decryption only happens on a
genuine token. -/
theorem claim_C2_decrypt_failures_w :
    FERNET_decrypt 3 ((FERNET_encrypt 3 7 (str2codes "a")).set 0 0) = none ∧
    FERNET_decrypt 4 (FERNET_encrypt 3 7 (str2codes "a")) = none ∧
    ∃ n, FERNET_encrypt 3 7 (str2codes "a")
        = FERNET_encrypt 3 n (str2codes "a") :=
  ⟨claim_C2_decrypt_failures.2.1 3 7 (str2codes "a") 0 0 (by decide)
      (by decide),
   claim_C2_decrypt_failures.2.2 3 4 7 (str2codes "a") (by decide),
   claim_C2_decrypt_failures.1 3 (FERNET_encrypt 3 7 (str2codes "a"))
      (str2codes "a") (by decide)⟩

/-- C8: with the fresh nonce drawn by the library made explicit, two
encryption calls with distinct nonces produce distinct tokens for the same
key and plaintext. -/
theorem claim_C8_nonce_distinct :
    ∀ (k n1 n2 : Nat) (p : List Nat), n1 ≠ n2 →
      FERNET_encrypt k n1 p ≠ FERNET_encrypt k n2 p :=
  fun _ _ _ p h => FERNET_encrypt_nonce_inj p h

/-- Witness for C8 at concrete inputs. -/
theorem claim_C8_nonce_distinct_w :
    FERNET_encrypt 0 0 (str2codes "x") ≠ FERNET_encrypt 0 1 (str2codes "x") :=
  claim_C8_nonce_distinct 0 0 1 (str2codes "x") (by decide)

/-! ## Key provider lemmas and claims C3-C6 -/

theorem mkdirStep_writeFails (fs : KeyFS) :
    (mkdirStep fs).writeFails = fs.writeFails := by
  unfold mkdirStep
  cases h : (!fs.parentExists && !fs.mkdirFails) <;> simp

theorem load_some {fs : KeyFS} {b : List Nat} (fk : List Nat)
    (hb : fs.keyFile = some b) :
    load_or_create_key fs fk
      = if fs.readFails then .error .readError else .ok (b, fs) := by
  unfold load_or_create_key
  rw [hb]

theorem load_none {fs : KeyFS} (fk : List Nat) (hb : fs.keyFile = none) :
    load_or_create_key fs fk
      = if (mkdirStep fs).writeFails then .error .writeError
        else .ok (fk, { mkdirStep fs with keyFile := some fk }) := by
  unfold load_or_create_key
  rw [hb]

/-- C3, counterexample: on a store whose first record's email is not a
token (the seeded plaintext) and whose second record's email decrypts fine,
`decrypt_and_print_emails` reports nothing at all and aborts — the failure
is not caught per record, the failing record gets no inline marker, and the
perfectly decryptable second record is never reported. -/
theorem claim_C3_counterexample :
    FERNET_decrypt 5 goodUser.email = some (str2codes "bo@test.se") ∧
    FERNET_decrypt 5 badUser.email = none ∧
    decrypt_and_print_emails 5 [badUser, goodUser] = ([], true) :=
  ⟨by decide, by decide, by decide⟩

/-- C3 as amended: a per-record decryption failure is NOT caught by
`decrypt_and_print_emails` — the exception aborts the listing; the records
before the first failing one are the only ones reported and everything from
the failing record on is lost. -/
theorem claim_C3_abort_listing :
    ∀ (k : Nat) (a : List User) (u : User) (b : List User),
      (∀ v ∈ a, FERNET_decrypt k v.email ≠ none) →
      FERNET_decrypt k u.email = none →
      (decrypt_and_print_emails k (a ++ u :: b)).2 = true ∧
      (decrypt_and_print_emails k (a ++ u :: b)).1.length = a.length := by
  intro k a
  induction a with
  | nil =>
    intro u b _ hu
    simp only [List.nil_append, decrypt_and_print_emails, hu]
    simp
  | cons v rest ih =>
    intro u b h hu
    obtain ⟨p, hp⟩ :=
      Option.ne_none_iff_exists'.1 (h v (List.mem_cons_self _ _))
    simp only [List.cons_append, decrypt_and_print_emails, hp]
    obtain ⟨h1, h2⟩ := ih u b (fun w hw => h w (List.mem_cons_of_mem _ hw)) hu
    exact ⟨h1, by simp [h2]⟩

/-- Witness for the amended C3: with the decryptable record first and the
bad record second, the listing shows exactly one line and aborts. -/
theorem claim_C3_abort_listing_w :
    (decrypt_and_print_emails 5 ([goodUser] ++ badUser :: [])).2 = true ∧
    (decrypt_and_print_emails 5 ([goodUser] ++ badUser :: [])).1.length
      = 1 :=
  claim_C3_abort_listing 5 [goodUser] badUser [] (by decide) (by decide)

/-- C4: once the key file exists, every call returns its bytes verbatim and
leaves the filesystem untouched (no new key file); and any two consecutive
successful calls return byte-identical key material (hypotheses: the reads
involved do not raise). -/
theorem claim_C4_key_idempotent :
    (∀ (fs : KeyFS) (fk b : List Nat), fs.keyFile = some b →
      fs.readFails = false → load_or_create_key fs fk = .ok (b, fs)) ∧
    (∀ (fs fs1 : KeyFS) (fk1 fk2 k1 : List Nat),
      load_or_create_key fs fk1 = .ok (k1, fs1) → fs1.readFails = false →
      load_or_create_key fs1 fk2 = .ok (k1, fs1)) := by
  constructor
  · intro fs fk b hb hr
    rw [load_some fk hb, hr]
    rfl
  · intro fs fs1 fk1 fk2 k1 h hr1
    cases hkf : fs.keyFile with
    | some bytes =>
      rw [load_some fk1 hkf] at h
      cases hrf : fs.readFails with
      | true => rw [hrf] at h; cases h
      | false =>
        rw [hrf] at h
        simp only [if_neg Bool.false_ne_true, Except.ok.injEq,
          Prod.mk.injEq] at h
        obtain ⟨hk, hfs⟩ := h
        rw [← hfs] at hr1 ⊢
        rw [load_some fk2 hkf, hrf, ← hk]
        rfl
    | none =>
      rw [load_none fk1 hkf] at h
      cases hwf : (mkdirStep fs).writeFails with
      | true => rw [hwf] at h; cases h
      | false =>
        rw [hwf] at h
        simp only [if_neg Bool.false_ne_true, Except.ok.injEq,
          Prod.mk.injEq] at h
        obtain ⟨hk, hfs⟩ := h
        subst hfs
        subst hk
        rw [load_some fk2 rfl]
        have hcond : ¬ (({ mkdirStep fs with
            keyFile := some fk1 } : KeyFS).readFails = true) := by
          intro hcontra
          rw [hr1] at hcontra
          cases hcontra
        rw [if_neg hcond]

/-- Witness for C4 at a concrete filesystem state holding a key. -/
theorem claim_C4_key_idempotent_w :
    load_or_create_key ⟨some [1, 2], true, false, false, false⟩ [9]
      = .ok ([1, 2], ⟨some [1, 2], true, false, false, false⟩) ∧
    load_or_create_key ⟨some [1, 2], true, false, false, false⟩ [8]
      = .ok ([1, 2], ⟨some [1, 2], true, false, false, false⟩) :=
  ⟨claim_C4_key_idempotent.1 ⟨some [1, 2], true, false, false, false⟩ [9]
      [1, 2] rfl rfl,
   claim_C4_key_idempotent.2 ⟨some [1, 2], true, false, false, false⟩
      ⟨some [1, 2], true, false, false, false⟩ [9] [8] [1, 2] rfl rfl⟩

/-- C5, counterexample: with no key file, the parent directory missing and
`os.makedirs` raising, `load_or_create_key` swallows the directory-creation
failure and — the write call succeeding — returns as if provisioning
succeeded, instead of failing with a `KeyWriteError`. -/
theorem claim_C5_counterexample :
    fsNoDir.keyFile = none ∧ fsNoDir.parentExists = false ∧
    fsNoDir.mkdirFails = true ∧
    load_or_create_key fsNoDir [9]
      = .ok ([9], { fsNoDir with keyFile := some [9] }) :=
  ⟨rfl, rfl, rfl, rfl⟩

/-- C5 as amended: when no key exists, a directory-creation failure is
swallowed (`try/except: pass`) and the write is attempted regardless; the
call fails — with the raw OS write error, no `KeyWriteError` type exists —
exactly when the write call itself raises. -/
theorem claim_C5_swallowed_mkdir :
    ∀ (fs : KeyFS) (fk : List Nat), fs.keyFile = none →
      (fs.writeFails = true →
        load_or_create_key fs fk = .error .writeError) ∧
      (fs.writeFails = false →
        load_or_create_key fs fk
          = .ok (fk, { mkdirStep fs with keyFile := some fk })) := by
  intro fs fk hb
  constructor <;> intro hw <;>
    rw [load_none fk hb, mkdirStep_writeFails, hw] <;> rfl

/-- Witness for the amended C5: the swallowed `makedirs` failure with a
succeeding write yields success; a failing write yields the raw write
error. -/
theorem claim_C5_swallowed_mkdir_w :
    load_or_create_key fsNoDir [7]
      = .ok ([7], { mkdirStep fsNoDir with keyFile := some [7] }) ∧
    load_or_create_key ⟨none, false, false, true, true⟩ [7]
      = .error .writeError :=
  ⟨(claim_C5_swallowed_mkdir fsNoDir [7] rfl).2 rfl,
   (claim_C5_swallowed_mkdir ⟨none, false, false, true, true⟩ [7] rfl).1 rfl⟩

/-- C6, counterexample: the key location holds malformed key material
(wrong length for the scheme), yet `load_or_create_key` returns the bytes
verbatim instead of failing with a `KeyReadError`: it performs no
validation at all. -/
theorem claim_C6_counterexample :
    isValidFernetKey [1, 2, 3] = false ∧
    fsMalformed.keyFile = some [1, 2, 3] ∧
    load_or_create_key fsMalformed [9] = .ok ([1, 2, 3], fsMalformed) :=
  ⟨rfl, rfl, rfl⟩

/-- C6 as amended: whatever bytes sit at an existing, readable key location
are returned verbatim, valid or not (validation only happens later, in the
`Fernet` constructor); an unreadable location raises the raw OS read error
(no `KeyReadError` type exists). -/
theorem claim_C6_verbatim_no_validation :
    ∀ (fs : KeyFS) (b fk : List Nat), fs.keyFile = some b →
      (fs.readFails = false → load_or_create_key fs fk = .ok (b, fs)) ∧
      (fs.readFails = true →
        load_or_create_key fs fk = .error .readError) := by
  intro fs b fk hb
  constructor <;> intro hr <;> rw [load_some fk hb, hr] <;> rfl

/-- Witness for the amended C6: malformed bytes are returned verbatim; an
unreadable existing key location raises the read error. -/
theorem claim_C6_verbatim_no_validation_w :
    load_or_create_key fsMalformed [9] = .ok ([1, 2, 3], fsMalformed) ∧
    load_or_create_key ⟨some [1, 2, 3], true, true, false, false⟩ [9]
      = .error .readError :=
  ⟨(claim_C6_verbatim_no_validation fsMalformed [1, 2, 3] [9] rfl).1 rfl,
   (claim_C6_verbatim_no_validation ⟨some [1, 2, 3], true, true, false,
      false⟩ [1, 2, 3] [9] rfl).2 rfl⟩

/-- C7: on a store with pairwise distinct ids (the table's PRIMARY KEY
invariant), both transform passes visit each record exactly once at its own
position: `encrypt_emails` keeps id and name and replaces only the email
with its encryption; `anonymize_users` keeps id and replaces only name and
email; the store's length never changes (no record skipped, added or
deleted). -/
theorem claim_C7_transform_frame :
    (∀ (k : Nat) (nonces : Nat → Nat) (db : List User),
      (db.map User.id).Nodup →
      (encrypt_emails k nonces db).length = db.length ∧
      ∀ (i : Nat) (u : User), db[i]? = some u →
        (encrypt_emails k nonces db)[i]? =
          some { u with email := FERNET_encrypt k (nonces i) u.email }) ∧
    (∀ (fakes : Nat → List Nat × List Nat) (db : List User),
      (db.map User.id).Nodup →
      (anonymize_users fakes db).length = db.length ∧
      ∀ (i : Nat) (u : User), db[i]? = some u →
        (anonymize_users fakes db)[i]? =
          some { u with name := (fakes i).1, email := (fakes i).2 }) :=
  ⟨fun k nonces _ hnd => encrypt_emails_spec k nonces hnd,
   fun fakes _ hnd => anonymize_users_spec fakes hnd⟩

/-- Witness for C7 at the concrete seeded store. -/
theorem claim_C7_transform_frame_w :
    (encrypt_emails 5 (fun j => j) (init_database freshDB).users).length
      = 2 ∧
    (encrypt_emails 5 (fun j => j) (init_database freshDB).users)[0]?
      = some ⟨1, str2codes "Anna Andersson",
          FERNET_encrypt 5 0 (str2codes "anna@test.se")⟩ ∧
    (anonymize_users (fun _ => (str2codes "X Y", str2codes "x@y.se"))
        (init_database freshDB).users)[1]?
      = some ⟨2, str2codes "X Y", str2codes "x@y.se"⟩ := by
  have he := claim_C7_transform_frame.1 5 (fun j => j)
      (init_database freshDB).users (by decide)
  have ha := claim_C7_transform_frame.2
      (fun _ => (str2codes "X Y", str2codes "x@y.se"))
      (init_database freshDB).users (by decide)
  refine ⟨?_, ?_, ?_⟩
  · rw [he.1]
    rfl
  · exact he.2 0 ⟨1, str2codes "Anna Andersson", str2codes "anna@test.se"⟩
      rfl
  · exact ha.2 1 ⟨2, str2codes "Bo Bengtsson", str2codes "bo@test.se"⟩ rfl

/-- The ids assigned by `init_database` are pairwise distinct. -/
theorem init_ids_nodup (s : DBState) :
    ((init_database s).users.map User.id).Nodup := by
  show ([s.seq + 1, s.seq + 2] : List Nat).Nodup
  refine List.nodup_cons.2 ⟨?_, List.nodup_singleton _⟩
  intro h
  simp only [List.mem_singleton] at h
  omega

/-- After `encrypt_emails` over a store with pairwise distinct ids, every
record's email passes the heuristic check. -/
theorem encrypt_emails_all_check (k : Nat) (nonces : Nat → Nat)
    {db : List User} (hnd : (db.map User.id).Nodup) :
    ∀ v ∈ encrypt_emails k nonces db, checkEmail v.email = true := by
  obtain ⟨hlen, hpt⟩ := encrypt_emails_spec k nonces hnd
  intro v hv
  obtain ⟨i, hi⟩ := List.mem_iff_getElem?.1 hv
  obtain ⟨hb, _⟩ := List.getElem?_eq_some.1 hi
  have hilt : i < db.length := by rw [← hlen]; exact hb
  rw [hpt i (db.get ⟨i, hilt⟩)
    (by rw [List.getElem?_eq_getElem hilt, List.get_eq_getElem])] at hi
  have hv2 := Option.some.inj hi
  rw [← hv2]
  exact checkEmail_encrypt k (nonces i) (db.get ⟨i, hilt⟩).email

/-- C9: the self-check passes a record exactly when its stored email
contains no `@` (64) and at least one `=` (61); the per-record report is
exactly that check applied to each record; the overall verdict is pass
exactly when every record passes; on the freshly seeded plaintext data it
reports failure for every record (and overall), and after `encrypt_emails`
on seeded data it reports pass for every record (and overall). -/
theorem claim_C9_self_check :
    (∀ (e : List Nat), checkEmail e = true ↔ (¬ 64 ∈ e ∧ 61 ∈ e)) ∧
    (∀ (db : List User), (test_email_encryption db).1
        = db.map (fun u => (u.id, checkEmail u.email))) ∧
    (∀ (db : List User), ((test_email_encryption db).2 = true ↔
        ∀ u ∈ db, checkEmail u.email = true)) ∧
    (test_email_encryption (init_database freshDB).users
        = ([(1, false), (2, false)], false)) ∧
    (∀ (k : Nat) (nonces : Nat → Nat) (s : DBState),
      (∀ q ∈ (test_email_encryption
          (encrypt_emails k nonces (init_database s).users)).1,
        q.2 = true) ∧
      (test_email_encryption
          (encrypt_emails k nonces (init_database s).users)).2 = true) := by
  have hover : ∀ (db : List User), ((test_email_encryption db).2 = true ↔
      ∀ u ∈ db, checkEmail u.email = true) := by
    intro db
    show db.foldl (fun a u => a && checkEmail u.email) true = true ↔ _
    rw [foldl_and_eq_all, Bool.true_and, List.all_eq_true]
  refine ⟨?_, fun db => rfl, hover, by decide, ?_⟩
  · intro e
    have h64 : e.contains 64 = decide (64 ∈ e) := List.elem_eq_mem 64 e
    have h61 : e.contains 61 = decide (61 ∈ e) := List.elem_eq_mem 61 e
    unfold checkEmail
    rw [h64, h61]
    by_cases hm : (64 : Nat) ∈ e <;> by_cases hn : (61 : Nat) ∈ e <;>
      simp [hm, hn]
  · intro k nonces s
    have hall := encrypt_emails_all_check k nonces (init_ids_nodup s)
    constructor
    · intro q hq
      have hq2 : q ∈ (encrypt_emails k nonces (init_database s).users).map
          (fun u => (u.id, checkEmail u.email)) := hq
      obtain ⟨v, hv, rfl⟩ := List.mem_map.1 hq2
      exact hall v hv
    · rw [hover]
      exact hall

/-- Witness for C9 at concrete inputs. -/
theorem claim_C9_self_check_w :
    (checkEmail (str2codes "anna@test.se") = true ↔
      (¬ 64 ∈ str2codes "anna@test.se" ∧ 61 ∈ str2codes "anna@test.se")) ∧
    ((test_email_encryption (init_database freshDB).users).2 = true ↔
      ∀ u ∈ (init_database freshDB).users, checkEmail u.email = true) ∧
    (test_email_encryption
        (encrypt_emails 5 (fun j => j) (init_database freshDB).users)).2
      = true :=
  ⟨claim_C9_self_check.1 (str2codes "anna@test.se"),
   claim_C9_self_check.2.2.1 (init_database freshDB).users,
   (claim_C9_self_check.2.2.2.2 5 (fun j => j) freshDB).2⟩

/-- C10: re-running `init_database` always leaves exactly the two fixed
(name, email) rows, but the ids continue from the AUTOINCREMENT sequence:
the first run on a fresh database assigns ids 1 and 2, the second run
assigns 3 and 4 instead of restarting at 1 and 2. -/
theorem claim_C10_reseed_ids :
    (∀ (s : DBState), (init_database s).users.map
        (fun u => (u.name, u.email))
      = [(str2codes "Anna Andersson", str2codes "anna@test.se"),
         (str2codes "Bo Bengtsson", str2codes "bo@test.se")]) ∧
    (∀ (s : DBState), (init_database s).users.map User.id
      = [s.seq + 1, s.seq + 2]) ∧
    (init_database freshDB).users.map User.id = [1, 2] ∧
    (init_database (init_database freshDB)).users.map User.id = [3, 4] :=
  ⟨fun _ => rfl, fun _ => rfl, by decide, by decide⟩
